import Mathlib

/-!
Verification of the π-estimation program (midpoint rectangle rule with a
thread-style work partition and a benchmark sweep), embedded shallowly:
doubles are modelled as exact rationals, the integration loop as a
tail-recursive accumulator, the thread fan-out/join as a list of partial
results, and the benchmark's nested loops as a flatMap over the fixed
configuration lists.  Wall-clock readings are abstract oracles supplied as
parameters.
-/

namespace PiIntegration

/-- The integrand from the source: f(x) = 4 / (1 + x*x). -/
def f (x : ℚ) : ℚ := 4 / (1 + x * x)

/-- The body of the for-loop in calculatePartialIntegral: `fuel` iterations
remain, `i` is the current loop index, `sum` the running accumulator.  Each
iteration adds f(start + i*stepSize + stepSize/2) * stepSize. -/
def integralGo (start stepSize : ℚ) : ℕ → ℕ → ℚ → ℚ
  | 0, _, sum => sum
  | fuel + 1, i, sum =>
      integralGo start stepSize fuel (i + 1)
        (sum + f (start + (i : ℚ) * stepSize + stepSize / 2) * stepSize)

/-- calculatePartialIntegral from the source: runs the loop for `steps`
iterations starting at index 0 with sum 0.  The `end_` parameter is taken
but, as in the source, never read. -/
def calculatePartialIntegral (start end_ : ℚ) (steps : ℕ) (stepSize : ℚ) : ℚ :=
  integralGo start stepSize steps 0 0

/-- stepSize = 1.0 / steps, computed once per run in main. -/
def stepSizeOf (steps : ℕ) : ℚ := 1 / (steps : ℚ)

/-- One worker's assigned sub-range: real start and end coordinates and the
number of integration steps it performs. -/
structure Interval where
  start : ℚ
  end_ : ℚ
  stepCount : ℕ
  deriving DecidableEq

/-- stepsPerThread = steps / numThreads, integer division as in main. -/
def stepsPerThreadOf (totalSteps numThreads : ℕ) : ℕ := totalSteps / numThreads

/-- The work partition computed in main's thread-spawning loop: worker i gets
start = i * stepsPerThread * stepSize, end = (i+1) * stepsPerThread * stepSize
and stepsPerThread integration steps. -/
def partition (totalSteps numThreads : ℕ) : List Interval :=
  let stepSize := stepSizeOf totalSteps
  let stepsPerThread := stepsPerThreadOf totalSteps numThreads
  (List.range numThreads).map (fun (i : ℕ) =>
    { start := (i : ℚ) * (stepsPerThread : ℚ) * stepSize
      end_ := ((i : ℚ) + 1) * (stepsPerThread : ℚ) * stepSize
      stepCount := stepsPerThread })

/-- The vector of per-thread results after the join barrier: each worker has
written calculatePartialIntegral over its interval into its own slot. -/
def threadResults (totalSteps numThreads : ℕ) : List ℚ :=
  (partition totalSteps numThreads).map (fun iv =>
    calculatePartialIntegral iv.start iv.end_ iv.stepCount (stepSizeOf totalSteps))

/-- The aggregation loop in main: pi starts at 0 and each partial result is
added in turn. -/
def aggregate (results : List ℚ) : ℚ :=
  results.foldl (fun pi r => pi + r) 0

/-- One full run: partition, integrate each interval, sum the partials. -/
def computePi (totalSteps numThreads : ℕ) : ℚ :=
  aggregate (threadResults totalSteps numThreads)

/-- The fixed step-count configurations of the benchmark. -/
def stepCounts : List ℕ := [100000000, 1000000000, 3000000000]

/-- The benchmark's maximum thread count. -/
def maxThreads : ℕ := 50

/-- One CSV data row: steps, thread count, elapsed seconds, π estimate. -/
structure RunRecord where
  steps : ℕ
  numThreads : ℕ
  time : ℚ
  pi : ℚ
  deriving DecidableEq

/-- The record emitted for one (steps, numThreads) combination, given the two
clock readings taken around the run. -/
def runRecordOf (startT endT : ℕ → ℕ → ℚ) (steps numThreads : ℕ) : RunRecord :=
  { steps := steps
    numThreads := numThreads
    time := endT steps numThreads - startT steps numThreads
    pi := computePi steps numThreads }

/-- The benchmark's nested loops: for each steps in stepCounts, for each
numThreads from 1 to maxThreads, one row, in that order.  The clock readings
around each run are abstracted as the oracles `startT` and `endT`. -/
def benchmarkRows (startT endT : ℕ → ℕ → ℚ) : List RunRecord :=
  stepCounts.flatMap (fun steps =>
    (List.range maxThreads).map (fun j => runRecordOf startT endT steps (j + 1)))

/-- The exact CSV header line written before any data row. -/
def csvHeader : String := "Liczba krokow,Liczba watków,Czas (s),Przyblizona liczba PI"

/-- main, as a function of whether the output file opened: on failure it
returns exit code 1 and produces no output; on success it writes the header
and all rows and returns exit code 0. -/
def mainRun (fileOpens : Bool) (startT endT : ℕ → ℕ → ℚ) :
    ℕ × Option (String × List RunRecord) :=
  if fileOpens then (0, some (csvHeader, benchmarkRows startT endT)) else (1, none)

/-- main as a function of the standard-input contents: the source never reads
from standard input, so the stdin argument is ignored. -/
def mainWithInput (stdin : List ℤ) (fileOpens : Bool) (startT endT : ℕ → ℕ → ℚ) :
    ℕ × Option (String × List RunRecord) :=
  mainRun fileOpens startT endT

/-- The spec's description of the Partial Integrator: the left-to-right
sequential sum over i in [0, stepCount) of f(start + i*stepSize + stepSize/2)
* stepSize. -/
def midpointLeftSum (start stepSize : ℚ) (stepCount : ℕ) : ℚ :=
  (List.range stepCount).foldl
    (fun (sum : ℚ) (i : ℕ) => sum + f (start + (i : ℚ) * stepSize + stepSize / 2) * stepSize) 0

/- ------------------------------------------------------------------ -/
/- Helper lemmas                                                       -/
/- ------------------------------------------------------------------ -/

lemma integralGo_eq_foldl (start stepSize : ℚ) :
    ∀ (fuel i : ℕ) (sum : ℚ),
      integralGo start stepSize fuel i sum =
        (List.range' i fuel).foldl
          (fun (s : ℚ) (j : ℕ) => s + f (start + (j : ℚ) * stepSize + stepSize / 2) * stepSize) sum := by
  intro fuel
  induction fuel with
  | zero => intro i sum; rfl
  | succ n ih =>
      intro i sum
      rw [List.range'_succ, List.foldl_cons]
      exact ih (i + 1) (sum + f (start + (i : ℚ) * stepSize + stepSize / 2) * stepSize)

lemma foldl_add_eq (l : List ℚ) :
    ∀ a : ℚ, l.foldl (fun pi r => pi + r) a = a + l.sum := by
  induction l with
  | nil => intro a; simp
  | cons x l ih =>
      intro a
      rw [List.foldl_cons, ih, List.sum_cons]
      ring

lemma sum_map_const_nat (w c : ℕ) : ((List.range w).map (fun _ => c)).sum = w * c := by
  induction w with
  | zero => simp
  | succ n ih =>
      rw [List.range_succ, List.map_append, List.sum_append, ih]
      simp [Nat.succ_mul]

/- ------------------------------------------------------------------ -/
/- Claim theorems                                                      -/
/- ------------------------------------------------------------------ -/

/-- C1: for every interval start, step size and stepCount ≥ 0, the Partial
Integrator returns the left-to-right sequential sum over i in [0, stepCount)
of f(start + i*stepSize + stepSize/2) * stepSize. -/
theorem calculatePartialIntegral_eq_midpointLeftSum
    (start end_ stepSize : ℚ) (stepCount : ℕ) :
    calculatePartialIntegral start end_ stepCount stepSize =
      midpointLeftSum start stepSize stepCount := by
  unfold calculatePartialIntegral midpointLeftSum
  rw [List.range_eq_range']
  exact integralGo_eq_foldl start stepSize stepCount 0 0

/-- C6: the Partial Integrator with stepCount = 0 returns exactly 0, and every
stepCount ≥ 0 produces a defined result. -/
theorem zero_steps_returns_zero (start end_ stepSize : ℚ) :
    calculatePartialIntegral start end_ 0 stepSize = 0 ∧
    ∀ stepCount : ℕ, ∃ r : ℚ, calculatePartialIntegral start end_ stepCount stepSize = r :=
  ⟨rfl, fun _ => ⟨_, rfl⟩⟩

/-- C10: the Partial Integrator's result does not depend on its end
parameter. -/
theorem end_parameter_ignored (start e1 e2 stepSize : ℚ) (stepCount : ℕ) :
    calculatePartialIntegral start e1 stepCount stepSize =
      calculatePartialIntegral start e2 stepCount stepSize := rfl

/-- C4: the aggregator's output is exactly the sum of the workerCount partial
results, nothing added and nothing removed. -/
theorem aggregator_sums_partials (totalSteps workerCount : ℕ) :
    computePi totalSteps workerCount = (threadResults totalSteps workerCount).sum ∧
    (threadResults totalSteps workerCount).length = workerCount := by
  constructor
  · show aggregate _ = _
    unfold aggregate
    rw [foldl_add_eq, zero_add]
  · simp [threadResults, partition]

/-- C5: the code performs no configuration validation: at workerCount = 0 the
pipeline silently produces an empty partition and the π estimate 0 instead of
reporting an InvalidConfiguration error (in C++ the division
steps / numThreads is moreover undefined behaviour there). -/
theorem invalid_config_not_rejected :
    partition 100000000 0 = [] ∧ computePi 100000000 0 = 0 :=
  ⟨rfl, rfl⟩

/-- C8: if the output file cannot be opened, main stops with exit code 1 and
produces no output at all; if it opens, main emits the header and all rows
and returns exit code 0. -/
theorem file_open_failure_aborts (startT endT : ℕ → ℕ → ℚ) :
    mainRun false startT endT = (1, none) ∧
    (mainRun false startT endT).1 ≠ 0 ∧
    mainRun true startT endT = (0, some (csvHeader, benchmarkRows startT endT)) := by
  refine ⟨rfl, ?_, rfl⟩
  simp [mainRun]

/-- C9 counterexample: the program's behaviour with stdin holding the two
integers 4 and 1000000 is identical to its behaviour with empty stdin — the
program never reads standard input, so there is no interactive mode. -/
theorem no_interactive_input_counterexample :
    mainWithInput [4, 1000000] true (fun _ _ => 0) (fun _ _ => 0) =
    mainWithInput [] true (fun _ _ => 0) (fun _ _ => 0) := rfl

/-- C9 amended: the program has no interactive mode: its behaviour is the
same for every standard-input contents. -/
theorem stdin_ignored (stdin1 stdin2 : List ℤ) (fileOpens : Bool)
    (startT endT : ℕ → ℕ → ℚ) :
    mainWithInput stdin1 fileOpens startT endT =
      mainWithInput stdin2 fileOpens startT endT := rfl

/-- C2: for totalSteps ≥ 1 and workerCount ≥ 1, the partitioner uses integer
division for stepsPerWorker, worker i gets the interval
[i*stepsPerWorker*stepSize, (i+1)*stepsPerWorker*stepSize) with stepsPerWorker
steps, and the totalSteps mod workerCount remainder steps are assigned to no
worker. -/
theorem partition_drops_remainder (totalSteps workerCount : ℕ)
    (ht : 1 ≤ totalSteps) (hw : 1 ≤ workerCount) :
    (partition totalSteps workerCount).length = workerCount ∧
    (∀ i, i < workerCount → (partition totalSteps workerCount)[i]? =
      some { start := (i : ℚ) * ((totalSteps / workerCount : ℕ) : ℚ) * stepSizeOf totalSteps
             end_ := ((i : ℚ) + 1) * ((totalSteps / workerCount : ℕ) : ℚ) * stepSizeOf totalSteps
             stepCount := totalSteps / workerCount }) ∧
    ((partition totalSteps workerCount).map Interval.stepCount).sum =
      totalSteps - totalSteps % workerCount := by
  refine ⟨by simp [partition], ?_, ?_⟩
  · intro i hi
    simp [partition, stepsPerThreadOf, List.getElem?_range hi]
  · have hmap : (partition totalSteps workerCount).map Interval.stepCount =
        (List.range workerCount).map (fun _ => totalSteps / workerCount) := by
      simp only [partition, List.map_map]
      rfl
    rw [hmap, sum_map_const_nat]
    exact eq_tsub_of_add_eq (Nat.div_add_mod totalSteps workerCount)

/-- C2 witness at totalSteps = 10, workerCount = 3. -/
theorem partition_drops_remainder_witness :
    (partition 10 3).length = 3 ∧
    (∀ i, i < 3 → (partition 10 3)[i]? =
      some { start := (i : ℚ) * ((10 / 3 : ℕ) : ℚ) * stepSizeOf 10
             end_ := ((i : ℚ) + 1) * ((10 / 3 : ℕ) : ℚ) * stepSizeOf 10
             stepCount := 10 / 3 }) ∧
    ((partition 10 3).map Interval.stepCount).sum = 10 - 10 % 3 :=
  partition_drops_remainder 10 3 (by decide) (by decide)

/-- C3: when workerCount divides totalSteps, the partition has exactly
workerCount intervals, their stepCounts sum to totalSteps, worker 0 starts at
0, each worker's start is the previous worker's end, and the last worker's
end is exactly 1. -/
theorem partition_tiles_unit_interval (totalSteps workerCount : ℕ)
    (ht : 1 ≤ totalSteps) (hw : 1 ≤ workerCount) (hdvd : workerCount ∣ totalSteps) :
    (partition totalSteps workerCount).length = workerCount ∧
    ((partition totalSteps workerCount).map Interval.stepCount).sum = totalSteps ∧
    ((partition totalSteps workerCount)[0]?.map Interval.start) = some 0 ∧
    ((partition totalSteps workerCount)[workerCount - 1]?.map Interval.end_) = some 1 ∧
    (∀ i a b, (partition totalSteps workerCount)[i]? = some a →
      (partition totalSteps workerCount)[i + 1]? = some b → b.start = a.end_) := by
  have hw0 : 0 < workerCount := hw
  have ht0 : (totalSteps : ℚ) ≠ 0 := Nat.cast_ne_zero.mpr (by omega)
  refine ⟨by simp [partition], ?_, ?_, ?_, ?_⟩
  · have hmap : (partition totalSteps workerCount).map Interval.stepCount =
        (List.range workerCount).map (fun _ => totalSteps / workerCount) := by
      simp only [partition, List.map_map]
      rfl
    rw [hmap, sum_map_const_nat, Nat.mul_div_cancel' hdvd]
  · simp [partition, stepsPerThreadOf, List.getElem?_range hw0]
  · have hlt : workerCount - 1 < workerCount := by omega
    have h1 : ((workerCount - 1 : ℕ) : ℚ) + 1 = (workerCount : ℚ) := by
      rw [Nat.cast_sub hw]
      ring
    have h2 : (workerCount : ℚ) * ((totalSteps / workerCount : ℕ) : ℚ) = (totalSteps : ℚ) := by
      rw [← Nat.cast_mul, Nat.mul_div_cancel' hdvd]
    simp [partition, stepsPerThreadOf, List.getElem?_range hlt]
    rw [h1, h2, stepSizeOf, mul_one_div, div_self ht0]
  · intro i a b ha hb
    have hi1 : i + 1 < workerCount := by
      by_contra hcon
      rw [List.getElem?_eq_none (by simp [partition]; omega)] at hb
      exact Option.noConfusion hb
    have hi : i < workerCount := by omega
    simp [partition, stepsPerThreadOf, List.getElem?_range hi, List.getElem?_range hi1] at ha hb
    rw [← ha, ← hb]

/-- C3 witness at totalSteps = 10, workerCount = 5. -/
theorem partition_tiles_unit_interval_witness :
    (partition 10 5).length = 5 ∧
    ((partition 10 5).map Interval.stepCount).sum = 10 ∧
    ((partition 10 5)[0]?.map Interval.start) = some 0 ∧
    ((partition 10 5)[5 - 1]?.map Interval.end_) = some 1 ∧
    (∀ i a b, (partition 10 5)[i]? = some a →
      (partition 10 5)[i + 1]? = some b → b.start = a.end_) :=
  partition_tiles_unit_interval 10 5 (by decide) (by decide) ⟨2, rfl⟩

lemma flatMap_range_map_length {α : Type} (g : ℕ → ℕ → α) (m : ℕ) (l : List ℕ) :
    (l.flatMap (fun s => (List.range m).map (g s))).length = l.length * m := by
  induction l with
  | nil => simp
  | cons a t ih =>
      rw [List.flatMap_cons, List.length_append, List.length_map, List.length_range,
        List.length_cons, ih]
      ring

lemma flatMap_range_map_getElem {α : Type} (g : ℕ → ℕ → α) (m : ℕ) (l : List ℕ)
    (hm : 0 < m) :
    ∀ (k : ℕ) (r : α),
      (l.flatMap (fun s => (List.range m).map (g s)))[k]? = some r →
      ∃ s, l[k / m]? = some s ∧ r = g s (k % m) := by
  induction l with
  | nil => intro k r h; simp at h
  | cons a t ih =>
      intro k r h
      rw [List.flatMap_cons] at h
      by_cases hk : k < m
      · rw [List.getElem?_append, List.length_map, List.length_range, if_pos hk,
          List.getElem?_map, List.getElem?_range hk, Option.map_some'] at h
        refine ⟨a, ?_, ?_⟩
        · rw [Nat.div_eq_of_lt hk]
          exact List.getElem?_cons_zero
        · rw [Nat.mod_eq_of_lt hk]
          exact (Option.some.injEq _ _ ▸ h).symm
      · have hmk : m ≤ k := Nat.le_of_not_lt hk
        rw [List.getElem?_append_right (by simpa using hmk)] at h
        simp only [List.length_map, List.length_range] at h
        obtain ⟨s, hs, hr⟩ := ih (k - m) r h
        refine ⟨s, ?_, ?_⟩
        · rw [Nat.div_eq_sub_div hm hmk, List.getElem?_cons_succ]
          exact hs
        · rw [Nat.mod_eq_sub_mod hmk]
          exact hr

/-- C7: in benchmark mode, the program emits the exact header line and then
exactly stepCounts.length * maxThreads = 150 data rows; the row at position k
belongs to the combination (stepCounts[k / 50], k % 50 + 1), so the rows come
one per combination in nested-loop order, and under a monotone clock every
row's elapsed time is non-negative. -/
theorem benchmark_emits_matrix (startT endT : ℕ → ℕ → ℚ)
    (hclock : ∀ s n, startT s n ≤ endT s n) :
    csvHeader = "Liczba krokow,Liczba watków,Czas (s),Przyblizona liczba PI" ∧
    (benchmarkRows startT endT).length = stepCounts.length * maxThreads ∧
    stepCounts.length * maxThreads = 150 ∧
    (∀ k r, (benchmarkRows startT endT)[k]? = some r →
      stepCounts[k / maxThreads]? = some r.steps ∧
      r.numThreads = k % maxThreads + 1 ∧
      r.pi = computePi r.steps r.numThreads ∧
      0 ≤ r.time) := by
  refine ⟨rfl, ?_, rfl, ?_⟩
  · exact flatMap_range_map_length (fun s j => runRecordOf startT endT s (j + 1))
      maxThreads stepCounts
  · intro k r h
    obtain ⟨s, hs, hr⟩ :=
      flatMap_range_map_getElem (fun s j => runRecordOf startT endT s (j + 1))
        maxThreads stepCounts (by decide) k r h
    subst hr
    exact ⟨hs, rfl, rfl, sub_nonneg.mpr (hclock s (k % maxThreads + 1))⟩

/-- C7 witness with the constant-zero clock oracles. -/
theorem benchmark_emits_matrix_witness :
    csvHeader = "Liczba krokow,Liczba watków,Czas (s),Przyblizona liczba PI" ∧
    (benchmarkRows (fun _ _ => 0) (fun _ _ => 0)).length = stepCounts.length * maxThreads ∧
    stepCounts.length * maxThreads = 150 ∧
    (∀ k r, (benchmarkRows (fun _ _ => 0) (fun _ _ => 0))[k]? = some r →
      stepCounts[k / maxThreads]? = some r.steps ∧
      r.numThreads = k % maxThreads + 1 ∧
      r.pi = computePi r.steps r.numThreads ∧
      0 ≤ r.time) :=
  benchmark_emits_matrix (fun _ _ => 0) (fun _ _ => 0) (fun _ _ => le_refl 0)

end PiIntegration
